import Mathlib

/-!
Verification of the Mastermind repository (`self_play.py`, `single_player.py`,
`self_play_manhattan.py`, `convex_hull_solution.py`) against its
natural-language specification.

Codes are sequences of symbols drawn from `1..C` (`num_colors`), of length
`P` (`num_positions`).  Python integers are modelled on `ℤ` wherever a
subtraction or an absolute value occurs; counts and lengths stay on `ℕ`.
Python floats appearing in `convex_hull_solution.py` only ever hold exact
integer or small rational values and are modelled exactly.
-/

set_option maxHeartbeats 1000000

namespace Mastermind

/-- A code: an ordered sequence of symbols (small positive integers). -/
abbrev Code := List ℕ

namespace SelfPlay

/-- Embeds `score_guess` of `src/self_play.py` (and, up to the proved
equality `SinglePlayer.score_guess_eq`, of `src/single_player.py`):
`A` counts the positions where `zip guess code` agrees, `color_matches`
sums `min (count col guess) (count col code)` over the distinct symbols
of the guess (the keys of `Counter(guess)`), and `B = color_matches - A`
with Python integer subtraction modelled on `ℤ`. -/
def score_guess (guess code : Code) : ℕ × ℤ :=
  let A : ℕ := (guess.zip code).countP fun gc => gc.1 = gc.2
  let color_matches : ℕ :=
    (guess.dedup.map fun col => min (guess.count col) (code.count col)).sum
  (A, (color_matches : ℤ) - (A : ℤ))

/-- Embeds `all_codes` of `src/self_play.py`:
`itertools.product(range(1, num_colors + 1), repeat=num_positions)` in
lexicographic order, the first coordinate varying slowest. -/
def all_codes (num_colors : ℕ) : ℕ → List Code
  | 0 => [[]]
  | P + 1 =>
      (((List.range num_colors).map fun k => k + 1).map
        fun d => (all_codes num_colors P).map fun rest => d :: rest).flatten

/-- Embeds `code_to_int` of `src/self_play.py`: the digits shifted down by
one, read as a base-`num_colors` number (Python ints modelled on `ℤ`). -/
def code_to_int (code : Code) (num_colors : ℕ) : ℤ :=
  code.foldl (fun (val : ℤ) (digit : ℕ) => val * (num_colors : ℤ) + ((digit : ℤ) - 1)) 0

/-- One `partition[resp] = partition.get(resp, 0) + 1` update of the
response-keyed tally dict inside `minimax_pick`, modelled as an
association list in insertion order. -/
def bump : List ((ℕ × ℤ) × ℕ) → (ℕ × ℤ) → List ((ℕ × ℤ) × ℕ)
  | [], r => [(r, 1)]
  | (k, v) :: rest, r =>
      if k = r then (k, v + 1) :: rest else (k, v) :: bump rest r

/-- The partition dict built by the inner loop of `minimax_pick` over the
candidate set `S` for a fixed guess. -/
def buildPartition (guess : Code) (S : List Code) : List ((ℕ × ℤ) × ℕ) :=
  S.foldl (fun p code => bump p (score_guess guess code)) []

/-- `wc_size = max(partition.values())` of `minimax_pick`.  Modelled as a
fold of `max` from `0`; it agrees with the Python `max` whenever `S` is
nonempty (the only situation in which the source evaluates it — on an
empty `S` Python `max` would raise). -/
def wc_size (guess : Code) (S : List Code) : ℕ :=
  ((buildPartition guess S).map fun kv => kv.2).foldl max 0

/-- The tally stored in the partition dict for key `r` (`0` when the key
is absent): the first entry with key `r` — which is also the entry
`bump` updates. -/
def valueOf : List ((ℕ × ℤ) × ℕ) → (ℕ × ℤ) → ℕ
  | [], _ => 0
  | (k, v) :: rest, r => if k = r then v else valueOf rest r

/-- One iteration of the scan over `all_guesses` in `minimax_pick`,
updating the pair `(best_guesses, best_worst_case)`. -/
def scanStep (S : List Code) (st : List Code × Option ℕ) (guess : Code) :
    List Code × Option ℕ :=
  let wc := wc_size guess S
  match st.2 with
  | none => ([guess], some wc)
  | some b =>
      if wc < b then ([guess], some wc)
      else if wc = b then (st.1 ++ [guess], some b)
      else st

/-- Embeds `minimax_pick` of `src/self_play.py`: scan every guess of
`all_guesses`, keep the guesses minimizing the worst-case partition
bucket of `S`, prefer those also in `S`, and return element `0` of the
result of sorting by `code_to_int` — which the source calls with its
default `num_colors=6`, whatever alphabet the game actually uses.
Python's stable `list.sort` is modelled by the (equally stable)
insertion sort.  Python's `final_candidates[0]` would raise on an empty
list; the embedding returns `[]` there (the callers always pass
nonempty `all_guesses`). -/
def minimax_pick (S all_guesses : List Code) : Code :=
  let scan := all_guesses.foldl (scanStep S) ([], none)
  let in_S := scan.1.filter fun g => S.contains g
  let final_candidates := if in_S.isEmpty then scan.1 else in_S
  match final_candidates.insertionSort
      (fun a b => code_to_int a 6 ≤ code_to_int b 6) with
  | [] => []
  | g :: _ => g

/-- Outcome of one round of the driving loop of `self_play_mastermind`. -/
inductive RoundOutcome where
  | solved
  | inconsistent
  | nextRound (S : List Code)
deriving DecidableEq

/-- One round of the driving loop of `self_play_mastermind`
(`src/self_play.py`, lines 107-128), with the feedback value `fb` taken
as an input: report success when `A = num_positions` (before any
filtering), otherwise filter `S` by the feedback and report an
inconsistency when nothing remains. -/
def roundStep (num_positions : ℕ) (S : List Code) (guess : Code)
    (fb : ℕ × ℤ) : RoundOutcome :=
  if fb.1 = num_positions then .solved
  else
    let S2 := S.filter fun c => score_guess guess c = fb
    if S2.isEmpty then .inconsistent else .nextRound S2

end SelfPlay

namespace SinglePlayer

/-- Embeds `score_guess` of `src/single_player.py`: the same `A`, and
`total_color_matches` sums `min` only over the colors of the guess that
also occur in the code (the explicit `if color in color_count_code`
check); the dict keys are modelled by the distinct symbols of the guess. -/
def score_guess (guess code : Code) : ℕ × ℤ :=
  let A : ℕ := (guess.zip code).countP fun gc => gc.1 = gc.2
  let total_color_matches : ℕ :=
    (guess.dedup.map fun col =>
      if code.count col ≠ 0 then min (guess.count col) (code.count col) else 0).sum
  (A, (total_color_matches : ℤ) - (A : ℤ))

end SinglePlayer

namespace Manhattan

/-- Embeds `score_guess` of `src/self_play_manhattan.py`: the sum of the
absolute per-position differences over `zip guess code`. -/
def score_guess (guess code : Code) : ℤ :=
  ((guess.zip code).map fun gc => |(gc.1 : ℤ) - (gc.2 : ℤ)|).sum

end Manhattan

namespace ConvexHull

/-- Embeds `hamming_distance` of `src/convex_hull_solution.py`: the number
of positions of `zip x y` at which the two codes differ. -/
def hamming_distance (x y : List ℤ) : ℕ :=
  (x.zip y).countP fun ab => ab.1 ≠ ab.2

/-- `hamming_distance` specialized to the `d = 2` codes of
`play_hamming_mastermind_convex_hull`, viewed as coordinate pairs. -/
def hammingPair (x y : ℤ × ℤ) : ℕ :=
  hamming_distance [x.1, x.2] [y.1, y.2]

/-- Embeds `cross`: the 2-D cross product `OA × OB`.  The Python floats
hold exact integer values here, modelled on `ℤ`. -/
def cross (o a b : ℤ × ℤ) : ℤ :=
  (a.1 - o.1) * (b.2 - o.2) - (a.2 - o.2) * (b.1 - o.1)

/-- The `while`-pop loop of the monotone-chain halves of
`convex_hull_2d`: pop the top of the partial hull while the last two
points and the new point make a non-left turn. -/
def hullPop (p : ℤ × ℤ) : List (ℤ × ℤ) → List (ℤ × ℤ)
  | b :: a :: rest =>
      if cross a b p ≤ 0 then hullPop p (a :: rest) else b :: a :: rest
  | s => s

/-- One monotone-chain half of `convex_hull_2d`, the partial hull kept as
a stack (head = most recently appended point), returned in built order. -/
def hullHalf (pts : List (ℤ × ℤ)) : List (ℤ × ℤ) :=
  (pts.foldl (fun stack p => p :: hullPop p stack) []).reverse

/-- Embeds `convex_hull_2d` (Andrew's monotone chain): sort
lexicographically (Python's stable `sorted` modelled by the equally
stable insertion sort), build the lower and upper hulls, and concatenate
them minus the duplicated endpoints. -/
def convex_hull_2d (points : List (ℤ × ℤ)) : List (ℤ × ℤ) :=
  let pts := points.insertionSort fun a b =>
    a.1 < b.1 ∨ (a.1 = b.1 ∧ a.2 ≤ b.2)
  let lower := hullHalf pts
  let upper := hullHalf pts.reverse
  lower.dropLast ++ upper.dropLast

/-- The `same_sign` helper of `point_in_triangle`: `a * b >= 0`. -/
def same_sign (a b : ℤ) : Bool :=
  decide (0 ≤ a * b)

/-- Embeds `point_in_triangle`: the cross products of `pt` against the
three sides, checked pairwise for consistent sign (zero allowed) — the
source checks only `same_sign c1 c2` and `same_sign c2 c3`. -/
def point_in_triangle (pt : ℤ × ℤ) (tri : (ℤ × ℤ) × (ℤ × ℤ) × (ℤ × ℤ)) : Bool :=
  let c1 := cross tri.1 tri.2.1 pt
  let c2 := cross tri.2.1 tri.2.2 pt
  let c3 := cross tri.2.2 tri.1 pt
  same_sign c1 c2 && same_sign c2 c3

/-- The fan triangulation `(hull[0], hull[i], hull[i+1])` for
`i in range(1, len(hull) - 1)` used by `all_integer_points_in_2d_hull`. -/
def triangleFan (hull : List (ℤ × ℤ)) : List ((ℤ × ℤ) × (ℤ × ℤ) × (ℤ × ℤ)) :=
  (List.range (hull.length - 2)).map fun i =>
    (hull.headD (0, 0), hull.getD (i + 1) (0, 0), hull.getD (i + 2) (0, 0))

/-- Embeds `point_in_polygon_2d`: `pt` lies in some fan triangle. -/
def point_in_polygon_2d (pt : ℤ × ℤ)
    (triangles : List ((ℤ × ℤ) × (ℤ × ℤ) × (ℤ × ℤ))) : Bool :=
  triangles.any fun tri => point_in_triangle pt tri

/-- `range(lo, hi + 1)` over `ℤ` (empty when `hi < lo`). -/
def intRange (lo hi : ℤ) : List ℤ :=
  (List.range (hi + 1 - lo).toNat).map fun k => lo + (k : ℤ)

/-- Python `min` of a nonempty list (the source only calls it so). -/
def listMin (l : List ℤ) : ℤ := l.foldl min (l.headD 0)

/-- Python `max` of a nonempty list (the source only calls it so). -/
def listMax (l : List ℤ) : ℤ := l.foldl max (l.headD 0)

/-- Embeds `all_integer_points_in_2d_hull`: scan the bounding box of the
hull (floor/ceil are the identity on the integer-valued coordinates) and
keep the points inside some fan triangle, in `ix`-major order. -/
def all_integer_points_in_2d_hull (hull : List (ℤ × ℤ)) : List (ℤ × ℤ) :=
  let xs := hull.map fun p => p.1
  let ys := hull.map fun p => p.2
  let triangles := triangleFan hull
  ((intRange (listMin xs) (listMax xs)).map fun ix =>
    (intRange (listMin ys) (listMax ys)).filterMap fun iy =>
      if point_in_polygon_2d (ix, iy) triangles then some (ix, iy) else none).flatten

/-- The hull-coarsening applied to the already-filtered candidate set in
one round of `play_hamming_mastermind_convex_hull` (lines 205-223, the
`d = 2` branch): when at least 3 points survive the Hamming filter,
compute their hull, gather the integer points inside it, and keep those
that were in the filtered set; otherwise keep the filtered set. -/
def hullStep (new_S : List (ℤ × ℤ)) : List (ℤ × ℤ) :=
  if 3 ≤ new_S.length then
    let hull_2d := convex_hull_2d new_S
    let hull_int_pts := all_integer_points_in_2d_hull hull_2d
    hull_int_pts.filter fun ip => new_S.contains ip
  else new_S

/-- Python `round` on an exact rational: nearest integer, ties to even. -/
def pyRound (q : ℚ) : ℤ :=
  if q - ⌊q⌋ < 1/2 then ⌊q⌋
  else if 1/2 < q - ⌊q⌋ then ⌊q⌋ + 1
  else if 2 ∣ ⌊q⌋ then ⌊q⌋ else ⌊q⌋ + 1

/-- Embeds the guess selection of `play_hamming_mastermind_convex_hull`
(lines 171-185): a singleton `S` is guessed directly — skipping the
whole scan of the `else` branch — otherwise the coordinatewise average
of `S` (Python float division modelled as an exact rational), rounded
and clamped to `1..n`. -/
def chooseGuess (n : ℤ) (S : List (ℤ × ℤ)) : ℤ × ℤ :=
  if S.length = 1 then S.headD (0, 0)
  else
    let sizeS : ℚ := (S.length : ℚ)
    let ax : ℚ := ((S.map fun x => (x.1 : ℚ)).sum) / sizeS
    let ay : ℚ := ((S.map fun x => (x.2 : ℚ)).sum) / sizeS
    (min n (max 1 (pyRound ax)), min n (max 1 (pyRound ay)))

end ConvexHull

/-! ## General facts about zipped codes and symbol counts -/

theorem zip_forall_eq : ∀ {g c : Code}, g.length = c.length →
    (∀ p ∈ g.zip c, p.1 = p.2) → g = c
  | [], [], _, _ => rfl
  | [], _ :: _, h, _ => by simp at h
  | _ :: _, [], h, _ => by simp at h
  | a :: g, b :: c, h, hp => by
      have hab : a = b := hp (a, b) (by simp [List.zip_cons_cons])
      have ht : g = c := by
        refine zip_forall_eq (by simpa using h) fun p hm => hp p ?_
        simp [List.zip_cons_cons, hm]
      rw [hab, ht]

theorem sum_map_add (ks : List ℕ) (f g : ℕ → ℕ) :
    (ks.map fun x => f x + g x).sum = (ks.map f).sum + (ks.map g).sum := by
  induction ks with
  | nil => simp
  | cons k ks ih => simp [ih]; omega

theorem zip_self (l : List ℕ) : l.zip l = l.map fun a => (a, a) := by
  induction l with
  | nil => rfl
  | cons a t ih => simp [List.zip_cons_cons, ih]

theorem sum_map_indicator (a : ℕ) (ks : List ℕ) :
    (ks.map fun x => if a = x then 1 else 0).sum = ks.count a := by
  induction ks with
  | nil => simp
  | cons k ks ih =>
      rw [List.map_cons, List.sum_cons, ih, List.count_cons]
      by_cases hk : a = k
      · subst hk; simp; omega
      · simp [hk, Ne.symm hk]

theorem sum_count_of_once (l : List ℕ) (ks : List ℕ)
    (hk : ∀ a ∈ l, ks.count a = 1) :
    (ks.map fun x => l.count x).sum = l.length := by
  induction l with
  | nil => simp
  | cons a t ih =>
      have h1 : (ks.map fun x => (a :: t).count x).sum
          = (ks.map fun x => t.count x).sum
              + (ks.map fun x => if a = x then 1 else 0).sum := by
        rw [← sum_map_add]
        refine congrArg _ (List.map_congr_left fun x _ => ?_)
        simp [List.count_cons]
      rw [h1, sum_map_indicator, ih (fun b hb => hk b (List.mem_cons_of_mem _ hb)),
        hk a (List.mem_cons_self a t)]
      simp

theorem sum_count_dedup (l : List ℕ) :
    (l.dedup.map fun x => l.count x).sum = l.length :=
  sum_count_of_once l l.dedup fun a ha => by
    rw [List.count_dedup]; simp [ha]

theorem zip_truncate {α : Type} (g c : List α) (n : ℕ)
    (hn : n = min g.length c.length) :
    g.zip c = (g.take n).zip (c.take n) := by
  subst hn
  conv_lhs => rw [← List.take_length (l := g.zip c)]
  rw [List.length_zip, List.zip_eq_zipWith, List.take_zipWith, List.zip_eq_zipWith]

/-! ## Facts about the exact/color oracle -/

namespace SelfPlay

theorem score_guess_fst (g c : Code) :
    (score_guess g c).1 = (g.zip c).countP fun gc => gc.1 = gc.2 := rfl

theorem score_guess_snd (g c : Code) :
    (score_guess g c).2 =
      ((g.dedup.map fun col => min (g.count col) (c.count col)).sum : ℤ)
        - ((score_guess g c).1 : ℤ) := rfl

/-- The exact-match count is the whole length exactly on equal codes. -/
theorem score_guess_fst_eq_iff {P : ℕ} {g c : Code}
    (hg : g.length = P) (hc : c.length = P) :
    (score_guess g c).1 = P ↔ g = c := by
  rw [score_guess_fst]
  constructor
  · intro h
    have hlen : (g.zip c).length = P := by
      simp [List.length_zip, hg, hc]
    have := List.countP_eq_length (l := g.zip c)
      (p := fun gc => decide (gc.1 = gc.2)) |>.1 (by rw [h, hlen])
    exact zip_forall_eq (by rw [hg, hc]) fun p hp => by simpa using this p hp
  · rintro rfl
    rw [zip_self, List.countP_map]
    simp [Function.comp_def, List.countP_true, hg]

/-- A code scores `(P, 0)` against itself. -/
theorem score_guess_self {P : ℕ} {g : Code} (hg : g.length = P) :
    score_guess g g = (P, 0) := by
  have h1 : (score_guess g g).1 = P := (score_guess_fst_eq_iff hg hg).2 rfl
  have h2 : (score_guess g g).2 = 0 := by
    rw [score_guess_snd, h1]
    have : (g.dedup.map fun col => min (g.count col) (g.count col)).sum = g.length := by
      rw [List.map_congr_left (fun x _ => min_self (g.count x)), sum_count_dedup]
    rw [this, hg]
    ring
  exact Prod.ext h1 h2

/-- The total color-match count is bounded by the guess length. -/
theorem color_matches_le (g c : Code) :
    (g.dedup.map fun col => min (g.count col) (c.count col)).sum ≤ g.length := by
  calc (g.dedup.map fun col => min (g.count col) (c.count col)).sum
      ≤ (g.dedup.map fun col => g.count col).sum :=
        List.sum_le_sum fun col _ => min_le_left _ _
    _ = g.length := sum_count_dedup g

end SelfPlay

namespace SinglePlayer

/-- `single_player.py` computes the same score as `self_play.py`: skipping
the colors absent from the code only drops zero summands. -/
theorem score_guess_eq (g c : Code) :
    score_guess g c = SelfPlay.score_guess g c := by
  have h : (g.dedup.map fun col =>
        if c.count col ≠ 0 then min (g.count col) (c.count col) else 0).sum
      = (g.dedup.map fun col => min (g.count col) (c.count col)).sum := by
    refine congrArg _ (List.map_congr_left fun col _ => ?_)
    by_cases hc : c.count col = 0 <;> simp [hc]
  simp only [score_guess, SelfPlay.score_guess, h]

end SinglePlayer

/-- Manhattan feedback is symmetric (positionwise, `|a - b| = |b - a|`). -/
theorem Manhattan.score_guess_symm : ∀ g c : Code,
    Manhattan.score_guess g c = Manhattan.score_guess c g
  | [], [] => rfl
  | [], _ :: _ => rfl
  | _ :: _, [] => rfl
  | a :: g, b :: c => by
      have h := Manhattan.score_guess_symm g c
      simp only [Manhattan.score_guess] at h ⊢
      rw [List.zip_cons_cons, List.zip_cons_cons, List.map_cons, List.map_cons,
        List.sum_cons, List.sum_cons, h, abs_sub_comm]

/-- Hamming feedback is symmetric (positionwise, `a ≠ b ↔ b ≠ a`). -/
theorem ConvexHull.hamming_distance_symm : ∀ x y : List ℤ,
    ConvexHull.hamming_distance x y = ConvexHull.hamming_distance y x
  | [], [] => rfl
  | [], _ :: _ => rfl
  | _ :: _, [] => rfl
  | a :: x, b :: y => by
      have h := ConvexHull.hamming_distance_symm x y
      simp only [ConvexHull.hamming_distance] at h ⊢
      rw [List.zip_cons_cons, List.zip_cons_cons, List.countP_cons,
        List.countP_cons, h]
      congr 1
      by_cases hab : a = b
      · simp [hab]
      · simp [hab, Ne.symm hab]

/-! ## The partition tally of minimax_pick -/

namespace SelfPlay

theorem valueOf_bump (p : List ((ℕ × ℤ) × ℕ)) (s r : ℕ × ℤ) :
    valueOf (bump p s) r = valueOf p r + if s = r then 1 else 0 := by
  induction p with
  | nil => simp [bump, valueOf]
  | cons kv rest ih =>
      obtain ⟨k, v⟩ := kv
      by_cases hks : k = s
      · subst hks
        by_cases hkr : k = r
        · subst hkr; simp [bump, valueOf]
        · simp [bump, valueOf, hkr]
      · by_cases hkr : k = r
        · subst hkr
          simp [bump, valueOf, hks, Ne.symm hks]
        · simp [bump, valueOf, hks, hkr, ih]

theorem valueOf_foldl (g : Code) (r : ℕ × ℤ) :
    ∀ (S : List Code) (p : List ((ℕ × ℤ) × ℕ)),
    valueOf (S.foldl (fun p code => bump p (score_guess g code)) p) r
      = valueOf p r + (S.countP fun c => score_guess g c = r)
  | [], p => by simp
  | c :: S, p => by
      rw [List.foldl_cons, valueOf_foldl g r S, valueOf_bump, List.countP_cons]
      by_cases h : score_guess g c = r <;> simp [h] <;> omega

/-- The tally of key `r` counts the candidates of `S` responding `r`. -/
theorem valueOf_buildPartition (g : Code) (S : List Code) (r : ℕ × ℤ) :
    valueOf (buildPartition g S) r = S.countP fun c => score_guess g c = r := by
  rw [buildPartition, valueOf_foldl]
  simp [valueOf]

theorem foldl_max_init_le (l : List ℕ) (i : ℕ) : i ≤ l.foldl max i := by
  induction l generalizing i with
  | nil => simp
  | cons a l ih => exact le_trans (le_max_left i a) (ih (max i a))

theorem le_foldl_max_of_mem {l : List ℕ} {a : ℕ} (h : a ∈ l) (i : ℕ) :
    a ≤ l.foldl max i := by
  induction l generalizing i with
  | nil => cases h
  | cons b l ih =>
      rcases List.mem_cons.1 h with rfl | h2
      · exact le_trans (le_max_right i a) (foldl_max_init_le l (max i a))
      · exact ih h2 (max i b)

theorem foldl_max_le {l : List ℕ} {b : ℕ} (hi : ∀ a ∈ l, a ≤ b) :
    ∀ {i : ℕ}, i ≤ b → l.foldl max i ≤ b := by
  induction l with
  | nil => intro i h0; exact h0
  | cons a l ih =>
      intro i h0
      exact ih (fun x hx => hi x (List.mem_cons_of_mem _ hx))
        (max_le h0 (hi a (List.mem_cons_self a l)))

theorem valueOf_mem : ∀ (p : List ((ℕ × ℤ) × ℕ)) (r : ℕ × ℤ), valueOf p r ≠ 0 →
    (r, valueOf p r) ∈ p
  | [], _, h => absurd rfl h
  | (k, v) :: rest, r, h => by
      by_cases hk : k = r
      · subst hk
        simp only [valueOf, if_pos rfl] at h ⊢
        exact List.mem_cons_self _ _
      · simp only [valueOf, if_neg hk] at h ⊢
        exact List.mem_cons_of_mem _ (valueOf_mem rest r h)

/-- Every feedback bucket of `S` is at most the worst-case bucket size. -/
theorem countP_le_wc_size (g : Code) (S : List Code) (r : ℕ × ℤ) :
    (S.countP fun c => score_guess g c = r) ≤ wc_size g S := by
  by_cases h : (S.countP fun c => score_guess g c = r) = 0
  · simp [h]
  · have hv := valueOf_buildPartition g S r
    have hmem : (r, valueOf (buildPartition g S) r) ∈ buildPartition g S :=
      valueOf_mem _ _ (by rw [hv]; exact h)
    have h2 : valueOf (buildPartition g S) r ∈ (buildPartition g S).map fun kv => kv.2 :=
      List.mem_map.2 ⟨_, hmem, rfl⟩
    rw [← hv]
    exact le_foldl_max_of_mem h2 0

theorem mem_bump : ∀ (p : List ((ℕ × ℤ) × ℕ)) (r : ℕ × ℤ) (kv : (ℕ × ℤ) × ℕ),
    kv ∈ bump p r → kv ∈ p ∨ (kv.1 = r ∧ kv.2 = valueOf p r + 1)
  | [], r, kv, h => by
      simp only [bump, List.mem_singleton] at h
      subst h
      exact Or.inr ⟨rfl, by simp [valueOf]⟩
  | (k, v) :: rest, r, kv, h => by
      by_cases hk : k = r
      · subst hk
        simp only [bump, if_pos rfl] at h
        rcases List.mem_cons.1 h with rfl | h2
        · exact Or.inr ⟨rfl, by simp [valueOf]⟩
        · exact Or.inl (List.mem_cons_of_mem _ h2)
      · simp only [bump, if_neg hk] at h
        rcases List.mem_cons.1 h with rfl | h2
        · exact Or.inl (List.mem_cons_self _ _)
        · rcases mem_bump rest r kv h2 with h3 | ⟨h3, h4⟩
          · exact Or.inl (List.mem_cons_of_mem _ h3)
          · exact Or.inr ⟨h3, by rw [h4]; simp [valueOf, hk]⟩

/-- Every entry of the partition dict is bounded by its bucket count. -/
theorem mem_buildPartition_le (g : Code) (S : List Code) :
    ∀ kv ∈ buildPartition g S, kv.2 ≤ S.countP fun c => score_guess g c = kv.1 := by
  induction S using List.reverseRecOn with
  | nil => intro kv h; simp [buildPartition] at h
  | append_singleton S c ih =>
      intro kv h
      rw [buildPartition, List.foldl_concat] at h
      rcases mem_bump _ _ _ h with h2 | ⟨h2, h3⟩
      · calc kv.2 ≤ S.countP fun x => score_guess g x = kv.1 := ih kv h2
          _ ≤ _ := by rw [List.countP_append]; omega
      · rw [List.countP_append, h2, h3, ← buildPartition, valueOf_buildPartition]
        simp

theorem countP_beq_eq_one {S : List Code} {c0 : Code}
    (hnd : S.Nodup) (hc : c0 ∈ S) :
    (S.countP fun c => c == c0) = 1 := by
  induction S with
  | nil => cases hc
  | cons a S ih =>
      rw [List.countP_cons]
      have hnd2 := List.nodup_cons.1 hnd
      rcases List.mem_cons.1 hc with rfl | h2
      · have h0 : (S.countP fun c => c == c0) = 0 :=
          List.countP_eq_zero.2 fun c hcS => by
            simp only [beq_iff_eq]
            exact fun hcc => hnd2.1 (hcc ▸ hcS)
        simp [h0]
      · have ha : ¬((a == c0) = true) := by
          simp only [beq_iff_eq]
          rintro rfl
          exact hnd2.1 h2
        rw [ih hnd2.2 h2]
        simp [ha]

theorem countP_not_beq (S : List Code) (c0 : Code) :
    (S.countP fun c => !(c == c0)) = S.length - S.countP fun c => c == c0 := by
  induction S with
  | nil => simp
  | cons a S ih =>
      rw [List.countP_cons, List.countP_cons, ih]
      have hcl : (S.countP fun c => c == c0) ≤ S.length := List.countP_le_length _
      by_cases ha : a = c0 <;> simp [ha] <;> omega

/-- Guessing a member `c0` of a duplicate-free candidate set of size at
least 2 keeps every feedback bucket at most `|S| - 1`: the perfect
bucket holds only `c0` itself, and every other bucket misses `c0`. -/
theorem wc_size_le_of_mem (P : ℕ) (S : List Code) (c0 : Code)
    (hnd : S.Nodup) (hc0 : c0 ∈ S) (h2 : 2 ≤ S.length)
    (hlen : ∀ c ∈ S, c.length = P) :
    wc_size c0 S ≤ S.length - 1 := by
  have hc0len : c0.length = P := hlen c0 hc0
  have key : ∀ r : ℕ × ℤ, (S.countP fun c => score_guess c0 c = r) ≤ S.length - 1 := by
    intro r
    by_cases hr : r = ((P : ℕ), (0 : ℤ))
    · subst hr
      have he : (S.countP fun c => score_guess c0 c = ((P : ℕ), (0 : ℤ)))
          = S.countP fun c => c == c0 := by
        refine List.countP_congr fun c hc => ?_
        simp only [decide_eq_true_eq, beq_iff_eq]
        constructor
        · intro h
          have hfst : (score_guess c0 c).1 = P := by rw [h]
          exact ((score_guess_fst_eq_iff hc0len (hlen c hc)).1 hfst).symm
        · rintro rfl
          exact score_guess_self hc0len
      rw [he, countP_beq_eq_one hnd hc0]
      omega
    · have hmono : (S.countP fun c => score_guess c0 c = r)
          ≤ S.countP fun c => !(c == c0) := by
        refine List.countP_mono_left fun c hc h => ?_
        simp only [decide_eq_true_eq] at h
        simp only [Bool.not_eq_eq_eq_not, Bool.not_true, beq_eq_false_iff_ne, ne_eq]
        rintro rfl
        exact hr (h ▸ (score_guess_self hc0len).symm ▸ rfl)
      have hne := countP_not_beq S c0
      rw [countP_beq_eq_one hnd hc0] at hne
      omega
  have hvals : ∀ a ∈ (buildPartition c0 S).map fun kv => kv.2, a ≤ S.length - 1 := by
    intro a ha
    rcases List.mem_map.1 ha with ⟨kv, hkv, rfl⟩
    exact le_trans (mem_buildPartition_le c0 S kv hkv) (key kv.1)
  exact foldl_max_le hvals (by omega)

/-- Invariant of the scan of `minimax_pick` starting from an already
initialized state `(bg0, some b0)`. -/
theorem scan_go (S : List Code) :
    ∀ (gs : List Code) (bg0 : List Code) (b0 : ℕ),
    ∃ b bg, gs.foldl (scanStep S) (bg0, some b0) = (bg, some b) ∧
      b ≤ b0 ∧ (∀ g ∈ gs, b ≤ wc_size g S) ∧
      (b = b0 ∨ ∃ g ∈ gs, wc_size g S = b) ∧
      bg = (if b = b0 then bg0 else []) ++ gs.filter fun g => wc_size g S = b
  | [], bg0, b0 => ⟨b0, bg0, by simp⟩
  | g :: gs, bg0, b0 => by
      rw [List.foldl_cons]
      rcases lt_trichotomy (wc_size g S) b0 with hlt | heq0 | hgt
      · have hstep : scanStep S (bg0, some b0) g = ([g], some (wc_size g S)) := by
          simp [scanStep, hlt]
        obtain ⟨b, bg, hfold, hle, hall, hach, hbg⟩ := scan_go S gs [g] (wc_size g S)
        refine ⟨b, bg, by rw [hstep]; exact hfold, by omega, ?_, ?_, ?_⟩
        · intro g2 hg2
          rcases List.mem_cons.1 hg2 with rfl | h2
          · exact hle
          · exact hall g2 h2
        · rcases hach with rfl | ⟨g2, hg2, hwc⟩
          · exact Or.inr ⟨g, List.mem_cons_self g gs, rfl⟩
          · exact Or.inr ⟨g2, List.mem_cons_of_mem g hg2, hwc⟩
        · have hbne : ¬ b = b0 := by omega
          by_cases hb : wc_size g S = b
          · simp [hbg, List.filter_cons, hbne, hb]
          · simp [hbg, List.filter_cons, hbne, hb, Ne.symm hb]
      · have hstep : scanStep S (bg0, some b0) g = (bg0 ++ [g], some b0) := by
          simp [scanStep, heq0]
        obtain ⟨b, bg, hfold, hle, hall, hach, hbg⟩ := scan_go S gs (bg0 ++ [g]) b0
        refine ⟨b, bg, by rw [hstep]; exact hfold, hle, ?_, ?_, ?_⟩
        · intro g2 hg2
          rcases List.mem_cons.1 hg2 with rfl | h2
          · omega
          · exact hall g2 h2
        · rcases hach with rfl | ⟨g2, hg2, hwc⟩
          · exact Or.inl rfl
          · exact Or.inr ⟨g2, List.mem_cons_of_mem g hg2, hwc⟩
        · by_cases hb : b = b0
          · subst hb
            simp [hbg, List.filter_cons, heq0]
          · simp [hbg, List.filter_cons, hb, heq0, Ne.symm hb]
      · have hstep : scanStep S (bg0, some b0) g = (bg0, some b0) := by
          have hx1 : ¬ wc_size g S < b0 := by omega
          have hx2 : ¬ wc_size g S = b0 := by omega
          simp [scanStep, hx1, hx2]
        obtain ⟨b, bg, hfold, hle, hall, hach, hbg⟩ := scan_go S gs bg0 b0
        refine ⟨b, bg, by rw [hstep]; exact hfold, hle, ?_, ?_, ?_⟩
        · intro g2 hg2
          rcases List.mem_cons.1 hg2 with rfl | h2
          · omega
          · exact hall g2 h2
        · rcases hach with rfl | ⟨g2, hg2, hwc⟩
          · exact Or.inl rfl
          · exact Or.inr ⟨g2, List.mem_cons_of_mem g hg2, hwc⟩
        · have hwb : ¬ wc_size g S = b := by omega
          simp [hbg, List.filter_cons, hwb]

/-- Specification of the full scan of `minimax_pick`: on a nonempty guess
list the final `best_worst_case` is the achieved minimal worst case and
`best_guesses` collects exactly the minimizing guesses, in order. -/
theorem scan_spec (S : List Code) (g0 : Code) (rest : List Code) :
    ∃ b, (∀ g ∈ g0 :: rest, b ≤ wc_size g S) ∧
      (∃ g ∈ g0 :: rest, wc_size g S = b) ∧
      ((g0 :: rest).foldl (scanStep S) ([], none)).1
        = (g0 :: rest).filter fun g => wc_size g S = b := by
  rw [List.foldl_cons]
  have hstep : scanStep S ([], none) g0 = ([g0], some (wc_size g0 S)) := rfl
  rw [hstep]
  obtain ⟨b, bg, hfold, hle, hall, hach, hbg⟩ := scan_go S rest [g0] (wc_size g0 S)
  refine ⟨b, ?_, ?_, ?_⟩
  · intro g hg
    rcases List.mem_cons.1 hg with rfl | h2
    · exact hle
    · exact hall g h2
  · rcases hach with rfl | ⟨g2, hg2, hwc⟩
    · exact ⟨g0, List.mem_cons_self g0 rest, rfl⟩
    · exact ⟨g2, List.mem_cons_of_mem g0 hg2, hwc⟩
  · rw [hfold]
    by_cases hb : wc_size g0 S = b
    · simp [hbg, List.filter_cons, hb]
    · simp [hbg, List.filter_cons, hb, Ne.symm hb]

/-- The comparison used by the tie-break sort is transitive and total, so
the head of the sorted list is a minimum. -/
theorem insertionSort_head_min (l : List Code) (hne : l ≠ []) :
    ∃ p t, (l.insertionSort fun a b => code_to_int a 6 ≤ code_to_int b 6) = p :: t ∧
      p ∈ l ∧ ∀ x ∈ l, code_to_int p 6 ≤ code_to_int x 6 := by
  haveI : IsTotal Code fun a b => code_to_int a 6 ≤ code_to_int b 6 :=
    ⟨fun a b => le_total _ _⟩
  haveI : IsTrans Code fun a b => code_to_int a 6 ≤ code_to_int b 6 :=
    ⟨fun a b c hab hbc => le_trans hab hbc⟩
  have hsorted := List.sorted_insertionSort
    (fun a b => code_to_int a 6 ≤ code_to_int b 6) l
  have hperm := List.perm_insertionSort
    (fun a b => code_to_int a 6 ≤ code_to_int b 6) l
  cases hms : l.insertionSort (fun a b => code_to_int a 6 ≤ code_to_int b 6) with
  | nil =>
      rw [hms] at hperm
      exact absurd hperm.symm.eq_nil hne
  | cons p t =>
      rw [hms] at hsorted hperm
      refine ⟨p, t, rfl, hperm.mem_iff.1 (List.mem_cons_self p t), ?_⟩
      intro x hx
      rcases List.mem_cons.1 (hperm.mem_iff.2 hx) with rfl | h2
      · exact le_refl _
      · exact (List.pairwise_cons.1 hsorted).1 x h2

/-- Full characterization of `minimax_pick` on a nonempty guess list:
the pick is a guess minimizing the worst-case bucket of `S`, it lies in
`S` whenever some minimizing guess does, and it minimizes
`code_to_int _ 6` within its tie-break tier. -/
theorem minimax_pick_spec (S : List Code) (g0 : Code) (rest : List Code) :
    minimax_pick S (g0 :: rest) ∈ g0 :: rest ∧
      (∀ g ∈ g0 :: rest, wc_size (minimax_pick S (g0 :: rest)) S ≤ wc_size g S) ∧
      ((∃ g ∈ g0 :: rest, wc_size g S = wc_size (minimax_pick S (g0 :: rest)) S ∧ g ∈ S) →
        minimax_pick S (g0 :: rest) ∈ S) ∧
      (∀ g ∈ g0 :: rest, wc_size g S = wc_size (minimax_pick S (g0 :: rest)) S →
        (g ∈ S ∨ minimax_pick S (g0 :: rest) ∉ S) →
        code_to_int (minimax_pick S (g0 :: rest)) 6 ≤ code_to_int g 6) := by
  obtain ⟨b, hmin, hach, hfst⟩ := scan_spec S g0 rest
  have hpick : minimax_pick S (g0 :: rest)
      = (let best := (g0 :: rest).filter fun g => wc_size g S = b
         let in_S := best.filter fun g => S.contains g
         let final := if in_S.isEmpty then best else in_S
         match final.insertionSort (fun a b => code_to_int a 6 ≤ code_to_int b 6) with
         | [] => []
         | g :: _ => g) := by
    simp only [minimax_pick, hfst]
  set best := (g0 :: rest).filter fun g => wc_size g S = b with hbest
  set in_S := best.filter fun g => S.contains g with hin_S
  set final := if in_S.isEmpty then best else in_S with hfinal
  have hbest_ne : best ≠ [] := by
    obtain ⟨g2, hg2, hwc⟩ := hach
    exact List.ne_nil_of_mem (List.mem_filter.2 ⟨hg2, by simpa using hwc⟩)
  have hfinal_ne : final ≠ [] := by
    rw [hfinal]
    by_cases he : in_S.isEmpty
    · simpa [he] using hbest_ne
    · simpa [he] using fun hx => he (by simp [hx])
  have hfinal_best : ∀ x ∈ final, x ∈ best := by
    intro x hx
    rw [hfinal] at hx
    by_cases he : in_S.isEmpty
    · simpa [he] using hx
    · rw [if_neg he] at hx
      exact List.mem_of_mem_filter hx
  obtain ⟨p, t, hms, hp_mem, hp_min⟩ := insertionSort_head_min final hfinal_ne
  have hpeq : minimax_pick S (g0 :: rest) = p := by
    rw [hpick]
    simp only
    rw [hms]
  have hp_best : p ∈ best := hfinal_best p hp_mem
  have hp_wc : wc_size p S = b := by
    have := (List.mem_filter.1 hp_best).2
    simpa using this
  have hp_gs : p ∈ g0 :: rest := List.mem_of_mem_filter hp_best
  rw [hpeq]
  refine ⟨hp_gs, ?_, ?_, ?_⟩
  · intro g hg
    rw [hp_wc]
    exact hmin g hg
  · rintro ⟨g, hg, hwc, hgS⟩
    have hg_best : g ∈ best := List.mem_filter.2 ⟨hg, by simp [hwc, hp_wc]⟩
    have hg_inS : g ∈ in_S := List.mem_filter.2 ⟨hg_best, by
      simpa [List.contains_iff_exists_mem_beq, beq_iff_eq] using hgS⟩
    have hne : ¬ in_S.isEmpty := fun hx => by
      rw [List.isEmpty_iff] at hx
      exact absurd (hx ▸ hg_inS) (List.not_mem_nil g)
    have : p ∈ in_S := by
      have := hp_mem
      rw [hfinal, if_neg hne] at this
      exact this
    have := (List.mem_filter.1 this).2
    simpa [List.contains_iff_exists_mem_beq, beq_iff_eq] using this
  · intro g hg hwc hcase
    have hg_best : g ∈ best := List.mem_filter.2 ⟨hg, by simp [hwc, hp_wc]⟩
    by_cases he : in_S.isEmpty
    · exact hp_min g (by rw [hfinal, if_pos he]; exact hg_best)
    · have hpS : p ∈ S := by
        have hp_inS : p ∈ in_S := by
          have := hp_mem
          rw [hfinal, if_neg he] at this
          exact this
        have := (List.mem_filter.1 hp_inS).2
        simpa [List.contains_iff_exists_mem_beq, beq_iff_eq] using this
      rcases hcase with hgS | hpnS
      · have hg_inS : g ∈ in_S := List.mem_filter.2 ⟨hg_best, by
          simpa [List.contains_iff_exists_mem_beq, beq_iff_eq] using hgS⟩
        exact hp_min g (by rw [hfinal, if_neg he]; exact hg_inS)
      · exact absurd hpS hpnS

/-! ### The code universe and its base-C enumeration -/

theorem sum_map_const {α : Type} (l : List α) (n : ℕ) :
    (l.map fun _ => n).sum = l.length * n := by
  induction l with
  | nil => simp
  | cons a l ih =>
      rw [List.map_cons, List.sum_cons, ih, List.length_cons]
      ring

theorem length_all_codes (C : ℕ) : ∀ P : ℕ, (all_codes C P).length = C ^ P
  | 0 => rfl
  | P + 1 => by
      rw [all_codes, List.length_flatten, List.map_map]
      have h1 : (((List.range C).map fun k => k + 1).map
            (List.length ∘ fun d => (all_codes C P).map fun rest => d :: rest))
          = ((List.range C).map fun k => k + 1).map fun _ => C ^ P :=
        List.map_congr_left fun d _ => by
          simp [length_all_codes C P]
      rw [h1, List.map_map]
      simp only [Function.comp_def]
      rw [sum_map_const, List.length_range, pow_succ]
      ring

theorem mem_all_codes (C : ℕ) : ∀ (P : ℕ) (c : Code),
    c ∈ all_codes C P ↔ c.length = P ∧ ∀ d ∈ c, 1 ≤ d ∧ d ≤ C
  | 0, c => by
      rw [all_codes]
      simp only [List.mem_singleton]
      constructor
      · rintro rfl
        exact ⟨rfl, fun d hd => absurd hd (List.not_mem_nil d)⟩
      · rintro ⟨h, _⟩
        exact List.length_eq_zero.1 h
  | P + 1, c => by
      rw [all_codes]
      simp only [List.mem_flatten, List.mem_map, List.mem_range]
      constructor
      · rintro ⟨L, ⟨d, ⟨k, hk, rfl⟩, rfl⟩, hcL⟩
        rcases List.mem_map.1 hcL with ⟨rest, hrest, rfl⟩
        have hr := (mem_all_codes C P rest).1 hrest
        refine ⟨by simp [hr.1], ?_⟩
        intro d hd
        rcases List.mem_cons.1 hd with rfl | h2
        · exact ⟨by omega, by omega⟩
        · exact hr.2 d h2
      · rintro ⟨hlen, hdig⟩
        cases c with
        | nil => simp at hlen
        | cons d rest =>
            have hd := hdig d (List.mem_cons_self d rest)
            refine ⟨(all_codes C P).map fun r => d :: r, ⟨d, ⟨d - 1, by omega, by omega⟩, rfl⟩, ?_⟩
            refine List.mem_map.2 ⟨rest, (mem_all_codes C P rest).2
              ⟨by simpa using hlen, fun x hx => hdig x (List.mem_cons_of_mem d hx)⟩, rfl⟩

theorem nodup_all_codes (C : ℕ) : ∀ P : ℕ, (all_codes C P).Nodup
  | 0 => by rw [all_codes]; exact List.nodup_singleton _
  | P + 1 => by
      rw [all_codes, List.nodup_flatten]
      constructor
      · intro L hL
        rcases List.mem_map.1 hL with ⟨d, _, rfl⟩
        exact (nodup_all_codes C P).map fun r1 r2 h => by injection h
      · rw [List.pairwise_map, List.pairwise_map]
        refine List.Pairwise.imp ?_ (List.pairwise_lt_range C)
        intro k1 k2 hk
        intro a ha hb
        rcases List.mem_map.1 ha with ⟨r1, _, rfl⟩
        rcases List.mem_map.1 hb with ⟨r2, _, heq⟩
        have : k2 + 1 = k1 + 1 := by injection heq
        omega

theorem code_to_int_foldl (C : ℕ) : ∀ (code : Code) (v : ℤ),
    code.foldl (fun (val : ℤ) (digit : ℕ) => val * (C : ℤ) + ((digit : ℤ) - 1)) v
      = v * (C : ℤ) ^ code.length + code_to_int code C
  | [], v => by simp [code_to_int]
  | d :: code, v => by
      have h1 := code_to_int_foldl C code (v * (C : ℤ) + ((d : ℤ) - 1))
      have h2 := code_to_int_foldl C code ((0 : ℤ) * (C : ℤ) + ((d : ℤ) - 1))
      have hdef : code_to_int (d :: code) C
          = code.foldl (fun (val : ℤ) (digit : ℕ) => val * (C : ℤ) + ((digit : ℤ) - 1))
              ((0 : ℤ) * (C : ℤ) + ((d : ℤ) - 1)) := rfl
      rw [List.foldl_cons, h1, hdef, h2, List.length_cons]
      ring

theorem code_to_int_cons (C : ℕ) (d : ℕ) (code : Code) :
    code_to_int (d :: code) C
      = ((d : ℤ) - 1) * (C : ℤ) ^ code.length + code_to_int code C := by
  have hdef : code_to_int (d :: code) C
      = code.foldl (fun (val : ℤ) (digit : ℕ) => val * (C : ℤ) + ((digit : ℤ) - 1))
          ((0 : ℤ) * (C : ℤ) + ((d : ℤ) - 1)) := rfl
  rw [hdef, code_to_int_foldl]
  ring

theorem code_to_int_bounds (C : ℕ) : ∀ (code : Code),
    (∀ d ∈ code, 1 ≤ d ∧ d ≤ C) →
    0 ≤ code_to_int code C ∧ code_to_int code C < (C : ℤ) ^ code.length
  | [], _ => by simp [code_to_int]
  | d :: code, hd => by
      have ih := code_to_int_bounds C code fun x hx => hd x (List.mem_cons_of_mem d hx)
      have hdd := hd d (List.mem_cons_self d code)
      have hd1 : (1 : ℤ) ≤ (d : ℤ) := by exact_mod_cast hdd.1
      have hd2 : (d : ℤ) ≤ (C : ℤ) := by exact_mod_cast hdd.2
      have hpow : (0 : ℤ) ≤ (C : ℤ) ^ code.length := by positivity
      rw [code_to_int_cons, List.length_cons]
      constructor
      · have : (0 : ℤ) ≤ ((d : ℤ) - 1) * (C : ℤ) ^ code.length :=
          mul_nonneg (by omega) hpow
        omega
      · have hle : ((d : ℤ) - 1) * (C : ℤ) ^ code.length
            ≤ ((C : ℤ) - 1) * (C : ℤ) ^ code.length :=
          mul_le_mul_of_nonneg_right (by omega) hpow
        have hsucc : (C : ℤ) ^ (code.length + 1) = (C : ℤ) ^ code.length * (C : ℤ) :=
          pow_succ _ _
        nlinarith [ih.1, ih.2]

theorem flatten_getElem_uniform {α : Type} : ∀ (bs : List (List α)) (L j i : ℕ),
    (∀ b ∈ bs, b.length = L) → i < L →
    bs.flatten[j * L + i]? = (bs[j]?).bind fun b => b[i]?
  | [], L, j, i, _, _ => by simp
  | b :: bs, L, 0, i, hb, hi => by
      rw [List.flatten_cons, Nat.zero_mul, Nat.zero_add,
        List.getElem?_append_left (by rw [hb b (List.mem_cons_self b bs)]; exact hi)]
      simp
  | b :: bs, L, j + 1, i, hb, hi => by
      have hlb : b.length = L := hb b (List.mem_cons_self b bs)
      have hL : b.length ≤ (j + 1) * L + i := by
        rw [hlb]
        calc L ≤ (j + 1) * L := Nat.le_mul_of_pos_left L (by omega)
          _ ≤ (j + 1) * L + i := Nat.le_add_right _ _
      rw [List.flatten_cons, List.getElem?_append_right hL, hlb]
      have harith : (j + 1) * L + i - L = j * L + i := by
        have : (j + 1) * L = j * L + L := by ring
        omega
      rw [harith,
        flatten_getElem_uniform bs L j i (fun x hx => hb x (List.mem_cons_of_mem b hx)) hi]
      simp

theorem all_codes_getElem (C : ℕ) : ∀ (P : ℕ) (code : Code),
    code ∈ all_codes C P → ∀ i : ℕ, (i : ℤ) = code_to_int code C →
    (all_codes C P)[i]? = some code
  | 0, code, h, i, hi => by
      rw [all_codes] at h ⊢
      have hc : code = [] := by simpa using h
      subst hc
      have : i = 0 := by
        simp [code_to_int] at hi
        exact_mod_cast hi
      subst this
      rfl
  | P + 1, code, h, i, hi => by
      have hchar := (mem_all_codes C (P + 1) code).1 h
      cases code with
      | nil => simp at hchar
      | cons d rest =>
          have hd := hchar.2 d (List.mem_cons_self d rest)
          have hrest : rest ∈ all_codes C P :=
            (mem_all_codes C P rest).2 ⟨by simpa using hchar.1,
              fun x hx => hchar.2 x (List.mem_cons_of_mem d hx)⟩
          have hrlen : rest.length = P := by simpa using hchar.1
          have hbounds := code_to_int_bounds C rest
            fun x hx => hchar.2 x (List.mem_cons_of_mem d hx)
          set i2 : ℕ := (code_to_int rest C).toNat with hi2
          have hi2cast : (i2 : ℤ) = code_to_int rest C :=
            Int.toNat_of_nonneg hbounds.1
          have hi2lt : i2 < C ^ P := by
            have h1 : (i2 : ℤ) < (C : ℤ) ^ P := by
              rw [hi2cast, ← hrlen]
              exact hbounds.2
            have h2 : ((C ^ P : ℕ) : ℤ) = (C : ℤ) ^ P := by push_cast; ring
            exact_mod_cast h2 ▸ h1
          have hdec : i = (d - 1) * C ^ P + i2 := by
            have hcti := code_to_int_cons C d rest
            rw [hrlen] at hcti
            have hz : (i : ℤ) = (((d - 1) * C ^ P + i2 : ℕ) : ℤ) := by
              rw [hi, hcti, ← hi2cast]
              push_cast [Nat.cast_sub hd.1]
              ring
            exact_mod_cast hz
          rw [all_codes, hdec]
          rw [flatten_getElem_uniform _ (C ^ P) (d - 1) i2 ?_ hi2lt]
          · have hjr : ((List.range C).map fun k => k + 1)[d - 1]? = some d := by
              rw [List.getElem?_map, List.getElem?_range (by omega)]
              simp only [Option.map_some']
              congr 1
              omega
            rw [List.getElem?_map, hjr]
            simp only [Option.map_some', Option.some_bind]
            rw [List.getElem?_map,
              all_codes_getElem C P rest hrest i2 hi2cast]
            rfl
          · intro b hb
            rcases List.mem_map.1 hb with ⟨d2, _, rfl⟩
            simp [length_all_codes]

/-- Every guess partitions a singleton candidate set into one bucket of
size one. -/
theorem wc_size_singleton (g c : Code) : wc_size g [c] = 1 := rfl

end SelfPlay

/-! ## Claim theorems: search engine -/

/-- **C10.** `code_to_int` maps every code of the `all_codes C P` universe
to its zero-based index in the enumeration order (stated via `getElem?`
on the duplicate-free enumeration), hence it is injective on the
universe and the base-`C` tie-break order picks a unique guess. -/
theorem C10_code_to_int_is_enumeration_index (C P : ℕ) :
    (SelfPlay.all_codes C P).Nodup ∧
      (∀ code ∈ SelfPlay.all_codes C P,
        0 ≤ SelfPlay.code_to_int code C ∧
        (SelfPlay.all_codes C P)[(SelfPlay.code_to_int code C).toNat]? = some code) ∧
      (∀ c1 ∈ SelfPlay.all_codes C P, ∀ c2 ∈ SelfPlay.all_codes C P,
        SelfPlay.code_to_int c1 C = SelfPlay.code_to_int c2 C → c1 = c2) := by
  refine ⟨SelfPlay.nodup_all_codes C P, ?_, ?_⟩
  · intro code hc
    have hb := SelfPlay.code_to_int_bounds C code
      fun d hd => ((SelfPlay.mem_all_codes C P code).1 hc).2 d hd
    exact ⟨hb.1, SelfPlay.all_codes_getElem C P code hc _ (Int.toNat_of_nonneg hb.1)⟩
  · intro c1 h1 c2 h2 heq
    have hb1 := SelfPlay.code_to_int_bounds C c1
      fun d hd => ((SelfPlay.mem_all_codes C P c1).1 h1).2 d hd
    have g1 := SelfPlay.all_codes_getElem C P c1 h1
      (SelfPlay.code_to_int c1 C).toNat (Int.toNat_of_nonneg hb1.1)
    have g2 := SelfPlay.all_codes_getElem C P c2 h2
      (SelfPlay.code_to_int c1 C).toNat (by rw [heq]; exact Int.toNat_of_nonneg (heq ▸ hb1.1))
    exact Option.some.inj (g1.symm.trans g2)

/-- Witness for `C10_code_to_int_is_enumeration_index` at `C = P = 2`. -/
theorem C10_witness :
    (0 ≤ SelfPlay.code_to_int [2,1] 2 ∧
      (SelfPlay.all_codes 2 2)[(SelfPlay.code_to_int [2,1] 2).toNat]? = some [2,1]) ∧
      ([1,2] : Code) = [1,2] :=
  ⟨(C10_code_to_int_is_enumeration_index 2 2).2.1 [2,1] (by decide),
    (C10_code_to_int_is_enumeration_index 2 2).2.2 [1,2] (by decide) [1,2] (by decide) rfl⟩

/-- **C5.** A singleton candidate set is guessed directly: `minimax_pick`
on `S = [c]` returns `c` (every guess has worst case 1, and `c` is the
preferred tied guess lying in `S`), and the guess selection of
`play_hamming_mastermind_convex_hull` returns the sole candidate through
its explicit `len(S) == 1` branch, skipping the scanning `else` branch
by the very definition of the conditional. -/
theorem C5_singleton_candidate_is_guessed (C P : ℕ) (c : Code)
    (hc : c ∈ SelfPlay.all_codes C P) :
    SelfPlay.minimax_pick [c] (SelfPlay.all_codes C P) = c ∧
      ∀ (n : ℤ) (p : ℤ × ℤ), ConvexHull.chooseGuess n [p] = p := by
  constructor
  · obtain ⟨g0, rest, hOm⟩ := List.exists_cons_of_ne_nil (List.ne_nil_of_mem hc)
    rw [hOm]
    obtain ⟨_, _, hpref, _⟩ := SelfPlay.minimax_pick_spec [c] g0 rest
    have hp : SelfPlay.minimax_pick [c] (g0 :: rest) ∈ [c] := by
      refine hpref ⟨c, hOm ▸ hc, ?_, List.mem_singleton_self c⟩
      rw [SelfPlay.wc_size_singleton, SelfPlay.wc_size_singleton]
    simpa using hp
  · intro n p
    simp [ConvexHull.chooseGuess]

/-- Witness for `C5_singleton_candidate_is_guessed` at `C = 2`, `P = 1`,
`c = [1]`, and `n = 3`, `p = (1, 2)`. -/
theorem C5_witness :
    SelfPlay.minimax_pick [[1]] (SelfPlay.all_codes 2 1) = [1] ∧
      ConvexHull.chooseGuess 3 [(1, 2)] = (1, 2) :=
  ⟨(C5_singleton_candidate_is_guessed 2 1 [1] (by decide)).1,
    (C5_singleton_candidate_is_guessed 2 1 [1] (by decide)).2 3 (1, 2)⟩

/-- **C3.** In every round of the driving loop with honest feedback the
candidate set never grows and, when more than one candidate remains, the
round reports a perfect match or strictly shrinks the candidate set.
Both kinds of round are covered: the opening round, whose fixed guess
`(1,1,2,2)` lies in the initial `S = Ω` (last conjunct, for the game's
`C = 6`, `P = 4`) and — like any guess in `S` — bounds every feedback
bucket by `|S| - 1` (second conjunct), and every later round, whose
guess is `minimax_pick S Ω` (third conjunct, via the minimality of its
worst case).  In fact the strict-shrink disjunct always holds in both
cases. -/
theorem C3_filtering_monotone_and_strictly_shrinks (C P : ℕ) (S : List Code)
    (secret : Code) (hnd : S.Nodup) (hsub : ∀ c ∈ S, c ∈ SelfPlay.all_codes C P)
    (hsec : secret ∈ S) :
    (∀ guess : Code,
      (S.filter fun c =>
          SelfPlay.score_guess guess c = SelfPlay.score_guess guess secret).length
        ≤ S.length) ∧
      (∀ guess ∈ S, 1 < S.length →
        ((SelfPlay.score_guess guess secret).1 = P ∨
          (S.filter fun c =>
              SelfPlay.score_guess guess c = SelfPlay.score_guess guess secret).length
            < S.length)) ∧
      (1 < S.length →
        ((SelfPlay.score_guess (SelfPlay.minimax_pick S (SelfPlay.all_codes C P)) secret).1 = P ∨
          (S.filter fun c =>
              SelfPlay.score_guess (SelfPlay.minimax_pick S (SelfPlay.all_codes C P)) c
                = SelfPlay.score_guess (SelfPlay.minimax_pick S (SelfPlay.all_codes C P)) secret).length
            < S.length)) ∧
      ([1,1,2,2] : Code) ∈ SelfPlay.all_codes 6 4 := by
  have hlen : ∀ c ∈ S, c.length = P :=
    fun c hc => ((SelfPlay.mem_all_codes C P c).1 (hsub c hc)).1
  refine ⟨?_, ?_, ?_, ?_⟩
  · intro guess
    exact List.length_filter_le _ S
  · intro guess hg h2
    refine Or.inr ?_
    have hwc : SelfPlay.wc_size guess S ≤ S.length - 1 :=
      SelfPlay.wc_size_le_of_mem P S guess hnd hg (by omega) hlen
    have hflt : (S.filter fun c =>
        SelfPlay.score_guess guess c = SelfPlay.score_guess guess secret).length
        ≤ SelfPlay.wc_size guess S := by
      rw [← List.countP_eq_length_filter]
      exact SelfPlay.countP_le_wc_size guess S (SelfPlay.score_guess guess secret)
    omega
  · intro h2
    refine Or.inr ?_
    obtain ⟨g0, rest, hOm⟩ :=
      List.exists_cons_of_ne_nil (List.ne_nil_of_mem (hsub secret hsec))
    rw [hOm]
    obtain ⟨_, hmin, _, _⟩ := SelfPlay.minimax_pick_spec S g0 rest
    set pick := SelfPlay.minimax_pick S (g0 :: rest) with hpick
    have hwc1 : SelfPlay.wc_size pick S ≤ SelfPlay.wc_size secret S :=
      hmin secret (hOm ▸ hsub secret hsec)
    have hwc2 : SelfPlay.wc_size secret S ≤ S.length - 1 :=
      SelfPlay.wc_size_le_of_mem P S secret hnd hsec (by omega) hlen
    have hflt : (S.filter fun c =>
        SelfPlay.score_guess pick c = SelfPlay.score_guess pick secret).length
        ≤ SelfPlay.wc_size pick S := by
      rw [← List.countP_eq_length_filter]
      exact SelfPlay.countP_le_wc_size pick S (SelfPlay.score_guess pick secret)
    omega
  · exact (SelfPlay.mem_all_codes 6 4 [1,1,2,2]).2 ⟨rfl, by decide⟩

/-- Witness for `C3_filtering_monotone_and_strictly_shrinks` at
`C = 2`, `P = 1`, `S = all_codes 2 1`, Secret `[1]`. -/
theorem C3_witness :
    ((∀ guess : Code,
      ((SelfPlay.all_codes 2 1).filter fun c =>
          SelfPlay.score_guess guess c = SelfPlay.score_guess guess [1]).length
        ≤ (SelfPlay.all_codes 2 1).length) ∧
      (∀ guess ∈ SelfPlay.all_codes 2 1, 1 < (SelfPlay.all_codes 2 1).length →
        ((SelfPlay.score_guess guess [1]).1 = 1 ∨
          ((SelfPlay.all_codes 2 1).filter fun c =>
              SelfPlay.score_guess guess c = SelfPlay.score_guess guess [1]).length
            < (SelfPlay.all_codes 2 1).length)) ∧
      (1 < (SelfPlay.all_codes 2 1).length →
        ((SelfPlay.score_guess
            (SelfPlay.minimax_pick (SelfPlay.all_codes 2 1) (SelfPlay.all_codes 2 1)) [1]).1 = 1 ∨
          ((SelfPlay.all_codes 2 1).filter fun c =>
              SelfPlay.score_guess
                  (SelfPlay.minimax_pick (SelfPlay.all_codes 2 1) (SelfPlay.all_codes 2 1)) c
                = SelfPlay.score_guess
                    (SelfPlay.minimax_pick (SelfPlay.all_codes 2 1) (SelfPlay.all_codes 2 1)) [1]).length
            < (SelfPlay.all_codes 2 1).length)) ∧
      ([1,1,2,2] : Code) ∈ SelfPlay.all_codes 6 4) :=
  C3_filtering_monotone_and_strictly_shrinks 2 1 (SelfPlay.all_codes 2 1) [1]
    (by decide) (by decide) (by decide)

/-- **C4 counterexample.** With alphabet size `C = 8` the tie-break is
not by base-`C` value: on `S = [[1,8],[2,1]]` both candidates achieve
the minimal worst case 1 over `Ω = all_codes 8 2` and both lie in `S`,
`[1,8]` is the smaller in base 8 (`7 < 8`), yet `minimax_pick` returns
`[2,1]` — the source sorts by `code_to_int` with its hard-coded default
base 6. -/
theorem C4_counterexample :
    SelfPlay.minimax_pick [[1,8],[2,1]] (SelfPlay.all_codes 8 2) = [2,1] ∧
      ([1,8] : Code) ∈ SelfPlay.all_codes 8 2 ∧
      ([1,8] : Code) ∈ ([[1,8],[2,1]] : List Code) ∧
      SelfPlay.wc_size [1,8] [[1,8],[2,1]] = SelfPlay.wc_size [2,1] [[1,8],[2,1]] ∧
      (∀ g ∈ SelfPlay.all_codes 8 2,
        SelfPlay.wc_size [1,8] [[1,8],[2,1]] ≤ SelfPlay.wc_size g [[1,8],[2,1]]) ∧
      SelfPlay.code_to_int [1,8] 8 < SelfPlay.code_to_int [2,1] 8 := by
  refine ⟨by decide, by decide, by decide, by decide, by decide, by decide⟩

/-- **C4 (amended).** `minimax_pick` is a deterministic function of its
inputs: it returns a guess of `Ω` achieving the minimal worst-case
partition bucket of `S`, preferring a minimizing guess also in `S` when
one exists, and among remaining ties the guess smallest by `code_to_int`
in the hard-coded default base 6 (which coincides with the base-`C`
order only when `C ≤ 6`); repeated calls return the identical guess. -/
theorem C4_amended_minimax_deterministic_base6 (S gs : List Code)
    (hS : S ≠ []) (hgs : gs ≠ []) :
    SelfPlay.minimax_pick S gs ∈ gs ∧
      (∀ g ∈ gs, SelfPlay.wc_size (SelfPlay.minimax_pick S gs) S ≤ SelfPlay.wc_size g S) ∧
      ((∃ g ∈ gs, SelfPlay.wc_size g S = SelfPlay.wc_size (SelfPlay.minimax_pick S gs) S
          ∧ g ∈ S) →
        SelfPlay.minimax_pick S gs ∈ S) ∧
      (∀ g ∈ gs, SelfPlay.wc_size g S = SelfPlay.wc_size (SelfPlay.minimax_pick S gs) S →
        (g ∈ S ∨ SelfPlay.minimax_pick S gs ∉ S) →
        SelfPlay.code_to_int (SelfPlay.minimax_pick S gs) 6 ≤ SelfPlay.code_to_int g 6) ∧
      SelfPlay.minimax_pick S gs = SelfPlay.minimax_pick S gs := by
  obtain ⟨g0, rest, rfl⟩ := List.exists_cons_of_ne_nil hgs
  obtain ⟨h1, h2, h3, h4⟩ := SelfPlay.minimax_pick_spec S g0 rest
  exact ⟨h1, h2, h3, h4, rfl⟩

/-- Witness for `C4_amended_minimax_deterministic_base6` at
`S = [[1,2]]`, `gs = all_codes 2 2`. -/
theorem C4_witness :
    SelfPlay.minimax_pick [[1,2]] (SelfPlay.all_codes 2 2) ∈ SelfPlay.all_codes 2 2 ∧
      (∀ g ∈ SelfPlay.all_codes 2 2,
        SelfPlay.wc_size (SelfPlay.minimax_pick [[1,2]] (SelfPlay.all_codes 2 2)) [[1,2]]
          ≤ SelfPlay.wc_size g [[1,2]]) ∧
      ((∃ g ∈ SelfPlay.all_codes 2 2,
          SelfPlay.wc_size g [[1,2]]
              = SelfPlay.wc_size (SelfPlay.minimax_pick [[1,2]] (SelfPlay.all_codes 2 2)) [[1,2]]
            ∧ g ∈ ([[1,2]] : List Code)) →
        SelfPlay.minimax_pick [[1,2]] (SelfPlay.all_codes 2 2) ∈ ([[1,2]] : List Code)) ∧
      (∀ g ∈ SelfPlay.all_codes 2 2,
        SelfPlay.wc_size g [[1,2]]
            = SelfPlay.wc_size (SelfPlay.minimax_pick [[1,2]] (SelfPlay.all_codes 2 2)) [[1,2]] →
        (g ∈ ([[1,2]] : List Code) ∨
          SelfPlay.minimax_pick [[1,2]] (SelfPlay.all_codes 2 2) ∉ ([[1,2]] : List Code)) →
        SelfPlay.code_to_int (SelfPlay.minimax_pick [[1,2]] (SelfPlay.all_codes 2 2)) 6
          ≤ SelfPlay.code_to_int g 6) ∧
      SelfPlay.minimax_pick [[1,2]] (SelfPlay.all_codes 2 2)
        = SelfPlay.minimax_pick [[1,2]] (SelfPlay.all_codes 2 2) :=
  C4_amended_minimax_deterministic_base6 [[1,2]] (SelfPlay.all_codes 2 2)
    (by decide) (by decide)

/-- **C8 counterexample.** The feedback `(2, 0)` (a perfect match for
`P = 2`) is not producible by any code of `S = [[1,1]]` against the
guess `[2,2]`, yet the round reports success, not an inconsistency: the
`A == num_positions` check precedes the filtering. -/
theorem C8_counterexample :
    (∀ c ∈ ([[1,1]] : List Code), SelfPlay.score_guess [2,2] c ≠ ((2 : ℕ), (0 : ℤ))) ∧
      SelfPlay.roundStep 2 [[1,1]] [2,2] (2, 0) = SelfPlay.RoundOutcome.solved := by
  constructor <;> decide

/-- **C8 (amended).** When the supplied feedback is not producible by any
code of `S` against the guess and does not denote a perfect match
(`A ≠ P`), filtering empties the candidate set and the round reports an
inconsistency — never success, and (the embedding being total) never a
crash. -/
theorem C8_amended_unproducible_feedback_inconsistent
    (P : ℕ) (S : List Code) (guess : Code) (fb : ℕ × ℤ)
    (hfb : ∀ c ∈ S, SelfPlay.score_guess guess c ≠ fb) (hP : fb.1 ≠ P) :
    (S.filter fun c => SelfPlay.score_guess guess c = fb) = [] ∧
      SelfPlay.roundStep P S guess fb = SelfPlay.RoundOutcome.inconsistent := by
  have hemp : (S.filter fun c => SelfPlay.score_guess guess c = fb) = [] :=
    List.filter_eq_nil_iff.2 fun c hc => by simpa using hfb c hc
  refine ⟨hemp, ?_⟩
  simp [SelfPlay.roundStep, hP, hemp]

/-- Witness for `C8_amended_unproducible_feedback_inconsistent` at
`P = 2`, `S = [[1,1]]`, guess `[2,2]`, feedback `(0, 5)`. -/
theorem C8_witness :
    (([[1,1]] : List Code).filter fun c =>
        SelfPlay.score_guess [2,2] c = ((0 : ℕ), (5 : ℤ))) = [] ∧
      SelfPlay.roundStep 2 [[1,1]] [2,2] (0, 5) = SelfPlay.RoundOutcome.inconsistent :=
  C8_amended_unproducible_feedback_inconsistent 2 [[1,1]] [2,2] (0, 5)
    (by decide) (by decide)

/-- The hull-coarsening step never adds a point: both of its branches
return sublists (by membership) of the filtered set. -/
theorem ConvexHull.hullStep_subset (l : List (ℤ × ℤ)) :
    ∀ p ∈ ConvexHull.hullStep l, p ∈ l := by
  intro p hp
  rw [ConvexHull.hullStep] at hp
  by_cases h3 : 3 ≤ l.length
  · rw [if_pos h3] at hp
    have := (List.mem_filter.1 hp).2
    simpa [List.contains_iff_exists_mem_beq, beq_iff_eq] using this
  · rwa [if_neg h3] at hp

/-- **C7 counterexample.** Filtering `S = [(1,1),(2,1),(3,1),(4,1)]` by
the honest Hamming feedback of guess `(1,2)` against the Secret
`(2,1) ∈ S` leaves the three collinear points `[(2,1),(3,1),(4,1)]`;
their degenerate hull has only 2 vertices, the fan triangulation is
empty, and the hull step returns `[]` — discarding even the Secret, so
omitting the hull step does change outcomes. -/
theorem C7_counterexample :
    ((2, 1) : ℤ × ℤ) ∈ ([(1,1),(2,1),(3,1),(4,1)] : List (ℤ × ℤ)) ∧
      (([(1,1),(2,1),(3,1),(4,1)] : List (ℤ × ℤ)).filter fun x =>
          ConvexHull.hammingPair (1,2) x = ConvexHull.hammingPair (1,2) (2,1))
        = [(2,1),(3,1),(4,1)] ∧
      ConvexHull.hullStep [(2,1),(3,1),(4,1)] = [] := by
  refine ⟨by decide, by decide, by decide⟩

/-- **C7 (amended).** The hull step applied to a candidate set filtered
by observed Hamming feedback returns a subset of the filtered set (it
never reintroduces an excluded candidate); it is not always equal to it
— on a collinear filtered set of three or more points it returns the
empty set (see the counterexample), so it is not a harmless redundant
optimization. -/
theorem C7_amended_hull_step_subset_of_filter
    (S : List (ℤ × ℤ)) (guess secret : ℤ × ℤ) :
    ∀ p ∈ ConvexHull.hullStep (S.filter fun x =>
        ConvexHull.hammingPair guess x = ConvexHull.hammingPair guess secret),
      p ∈ S.filter fun x =>
        ConvexHull.hammingPair guess x = ConvexHull.hammingPair guess secret :=
  fun p hp => ConvexHull.hullStep_subset _ p hp

/-- Witness for `C7_amended_hull_step_subset_of_filter` with
`S = [(1,1),(2,2)]`, guess `(1,2)`, Secret `(1,1)`, point `(1,1)`. -/
theorem C7_witness :
    ((1, 1) : ℤ × ℤ) ∈ (([(1,1),(2,2)] : List (ℤ × ℤ)).filter fun x =>
        ConvexHull.hammingPair (1,2) x = ConvexHull.hammingPair (1,2) (1,1)) :=
  C7_amended_hull_step_subset_of_filter [(1,1),(2,2)] (1,2) (1,1) (1,1) (by decide)



/-! ## Claim theorems: feedback oracles -/

/-- **C1.** For codes `g, c` of equal length `P` under the exact/color
feedback oracle `score_guess` (the identical computation in
`self_play.py` and `single_player.py`): the exact-match count `A` equals
`P` exactly when `g = c`, and `A + B ≤ P`. -/
theorem C1_color_feedback_perfect_iff_and_sum_le (P : ℕ) (g c : Code)
    (hg : g.length = P) (hc : c.length = P) :
    ((SelfPlay.score_guess g c).1 = P ↔ g = c) ∧
      ((SelfPlay.score_guess g c).1 : ℤ) + (SelfPlay.score_guess g c).2 ≤ (P : ℤ) ∧
      SinglePlayer.score_guess g c = SelfPlay.score_guess g c := by
  refine ⟨SelfPlay.score_guess_fst_eq_iff hg hc, ?_, SinglePlayer.score_guess_eq g c⟩
  rw [SelfPlay.score_guess_snd]
  have := SelfPlay.color_matches_le g c
  have hP : ((g.dedup.map fun col => min (g.count col) (c.count col)).sum : ℤ)
      ≤ (P : ℤ) := by
    exact_mod_cast hg ▸ Int.ofNat_le.2 this
  omega

/-- Witness for `C1_color_feedback_perfect_iff_and_sum_le` at
`P = 4`, `g = [1,1,2,2]`, `c = [1,2,1,2]`. -/
theorem C1_witness :
    ((SelfPlay.score_guess [1,1,2,2] [1,2,1,2]).1 = 4 ↔ ([1,1,2,2] : Code) = [1,2,1,2]) ∧
      ((SelfPlay.score_guess [1,1,2,2] [1,2,1,2]).1 : ℤ)
          + (SelfPlay.score_guess [1,1,2,2] [1,2,1,2]).2 ≤ (4 : ℤ) ∧
      SinglePlayer.score_guess [1,1,2,2] [1,2,1,2]
          = SelfPlay.score_guess [1,1,2,2] [1,2,1,2] :=
  C1_color_feedback_perfect_iff_and_sum_le 4 [1,1,2,2] [1,2,1,2] (by decide) (by decide)

/-- **C2.** With honest feedback (the feedback of each round computed by
scoring the guess against the Secret), the Secret survives the filter of
every round of the driving loop: after any sequence of rounds the Secret
is still a member of the candidate set. -/
theorem C2_secret_survives_filtering (secret : Code) (guesses : List Code)
    (S : List Code) (hs : secret ∈ S) :
    secret ∈ guesses.foldl
      (fun T g => T.filter fun c => SelfPlay.score_guess g c = SelfPlay.score_guess g secret)
      S := by
  induction guesses generalizing S with
  | nil => exact hs
  | cons g gs ih =>
      exact ih _ (List.mem_filter.2 ⟨hs, by simp⟩)

/-- Witness for `C2_secret_survives_filtering` with Secret `[3,4]`,
guesses `[[1,1],[3,3]]`, starting from `S = all_codes 4 2`. -/
theorem C2_witness :
    [3,4] ∈ ([[1,1],[3,3]] : List Code).foldl
      (fun T g => T.filter fun c => SelfPlay.score_guess g c = SelfPlay.score_guess g [3,4])
      (SelfPlay.all_codes 4 2) :=
  C2_secret_survives_filtering [3,4] [[1,1],[3,3]] (SelfPlay.all_codes 4 2) (by decide)

/-- **C6 counterexample.** On codes of unequal length both oracles return
a normal score instead of failing: the color oracle scores `[1,2,3]`
against `[1,2]` as `(2, 0)`, and the Manhattan oracle even reports
distance `0` — a perfect match — for `[1,1]` against `[1,1,5]`. -/
theorem C6_counterexample :
    Manhattan.score_guess [1,1] [1,1,5] = 0 ∧
      SelfPlay.score_guess [1,2,3] [1,2] = (2, 0) := by
  constructor <;> decide

/-- **C6 (amended).** On codes of unequal length `score_guess` does not
fail: `zip` silently truncates to the common prefix of length
`min |g| |c|`, so the exact-match count and the Manhattan distance are
those of the truncated codes (the color-count component of the exact
oracle still uses the full symbol multisets of both codes). -/
theorem C6_amended_silent_truncation (g c : Code) :
    (SelfPlay.score_guess g c).1
        = (SelfPlay.score_guess (g.take (min g.length c.length))
            (c.take (min g.length c.length))).1 ∧
      Manhattan.score_guess g c
        = Manhattan.score_guess (g.take (min g.length c.length))
            (c.take (min g.length c.length)) := by
  constructor
  · rw [SelfPlay.score_guess_fst, SelfPlay.score_guess_fst, ← zip_truncate g c _ rfl]
  · simp only [Manhattan.score_guess]
    rw [← zip_truncate g c _ rfl]

/-- **C9.** Manhattan feedback (`self_play_manhattan.py`) and Hamming
feedback (`convex_hull_solution.py`) are symmetric on codes of equal
length. -/
theorem C9_manhattan_hamming_symmetric :
    (∀ g c : Code, g.length = c.length →
        Manhattan.score_guess g c = Manhattan.score_guess c g) ∧
      (∀ x y : List ℤ, x.length = y.length →
        ConvexHull.hamming_distance x y = ConvexHull.hamming_distance y x) :=
  ⟨fun g c _ => Manhattan.score_guess_symm g c,
    fun x y _ => ConvexHull.hamming_distance_symm x y⟩

/-- Witness for `C9_manhattan_hamming_symmetric` at `[1,2]` / `[3,1]`. -/
theorem C9_witness :
    Manhattan.score_guess [1,2] [3,1] = Manhattan.score_guess [3,1] [1,2] ∧
      ConvexHull.hamming_distance [1,2] [3,1] = ConvexHull.hamming_distance [3,1] [1,2] :=
  ⟨C9_manhattan_hamming_symmetric.1 [1,2] [3,1] (by decide),
    C9_manhattan_hamming_symmetric.2 [1,2] [3,1] (by decide)⟩

end Mastermind
